import Mathlib

/-!
Shallow embedding of `src/stock_analyzer.py` (class `StockAnalyzer`).

Conventions of the embedding:
* Python floats are modelled as `ℚ` (exact arithmetic; the code performs only
  field operations on data values).
* A `pandas` closing-price series is modelled as a `List HistRow` (for raw
  provider history: date, close, volume) or `List (ℕ × ℚ)` (for the stored
  `price_history` column `hist_data['Close']`), dates ascending with no
  duplicates in well-formed provider data.
* Python `None` / absent dict keys are modelled with `Option`; the string
  sentinel `'N/A'` used by the code for missing numeric fields is modelled as
  `none` as well (each field of the record that can be `'N/A'` has type
  `Option ℚ` or `Option String`).
* The upstream `yfinance` provider is an oracle `Provider : String → FetchResult`:
  trying one candidate symbol either raises (modelling a timeout / malformed
  response escaping `ticker.info` / `ticker.history`) or yields a quote
  snapshot `Info` together with a history table.
* Pearson correlation involves a square root, which is irrational; to stay in
  executable `ℚ`, a correlation cell stores the *signed square* `r * |r|` of
  the Pearson coefficient `r` (a strictly monotone bijection of `[-1, 1]` onto
  itself, so symmetry, the unit diagonal and the `[-1, 1]` bounds transfer
  verbatim), and `none` models the `NaN` that `pandas.DataFrame.corr` produces
  when a column has zero variance over the aligned rows.
-/

/-! ### String helpers (models of the Python `str` operations used) -/

/-- Model of: does `t` start with the pattern `p` (lists of characters)? -/
def leadMatch : List Char → List Char → Bool
  | [], _ => true
  | _ :: _, [] => false
  | p :: ps, t :: ts => p == t && leadMatch ps ts

/-- Model of Python substring containment (`p in t`) on character lists. -/
def hasSubList (p : List Char) : List Char → Bool
  | [] => p.isEmpty
  | c :: ts => leadMatch p (c :: ts) || hasSubList p ts

/-- Model of the Python expression `pattern in symbol` (substring test). -/
def strIn (p s : String) : Bool := hasSubList p.data s.data

/-- Model of Python `str.upper()` (ASCII tickers). -/
def upperStr (s : String) : String := String.mk (s.data.map Char.toUpper)

/-- Model of Python `str.strip()`. -/
def trimStr (s : String) : String :=
  String.mk (((s.data.dropWhile Char.isWhitespace).reverse.dropWhile
    Char.isWhitespace).reverse)

/-- Model of Python `str.endswith(suf)`. -/
def endsWithStr (s suf : String) : Bool := leadMatch suf.data.reverse s.data.reverse

/-- Model of the Python expression `'.' in s`. -/
def containsDot (s : String) : Bool := s.data.contains '.'

/-! ### Symbol normalizer (`StockAnalyzer._normalize_symbol`, lines 18-35) -/

/-- The hardcoded list `indian_patterns` of `_normalize_symbol` (line 27),
verbatim, order and the duplicate `'CONCOR'` entry included. -/
def indian_patterns : List String :=
  ["RELIANCE", "TCS", "INFY", "HDFCBANK", "ICICIBANK", "SBIN", "ITC",
   "HINDUNILVR", "BHARTIARTL", "KOTAKBANK", "LT", "ASIANPAINT", "MARUTI",
   "TITAN", "NESTLEIND", "ULTRACEMCO", "POWERGRID", "NTPC", "ONGC",
   "COALINDIA", "WIPRO", "TECHM", "HCLTECH", "DRREDDY", "SUNPHARMA", "CIPLA",
   "DIVISLAB", "BAJFINANCE", "BAJAJFINSV", "AXISBANK", "INDUSINDBK",
   "TATAMOTORS", "TATASTEEL", "JSWSTEEL", "HINDALCO", "ADANIPORTS",
   "ADANIENT", "GRASIM", "BRITANNIA", "HEROMOTOCO", "BAJAJ-AUTO",
   "EICHERMOT", "BPCL", "IOC", "SHREECEM", "AMBUJACEM", "ACC", "VEDL",
   "SAIL", "NMDC", "JINDALSTEL", "TATACHEM", "UPL", "PIDILITIND", "DMART",
   "GODREJCP", "MARICO", "DABUR", "COLPAL", "PGHH", "MCDOWELL-N", "UBL",
   "APOLLOHOSP", "FORTIS", "LUPIN", "BIOCON", "CADILAHC", "AUROPHARMA",
   "TORNTPHARM", "ALKEM", "CONCOR", "SIEMENS", "ABB", "BHEL", "CROMPTON",
   "HAVELLS", "VOLTAS", "BLUESTAR", "CUMMINSIND", "BOSCHLTD", "MOTHERSUMI",
   "AMARAJABAT", "EXIDEIND", "MFSL", "SRTRANSFIN", "CHOLAFIN", "PFC",
   "RECLTD", "IRCTC", "CONCOR", "FINOPB", "INOXGREEN"]

/-- Model of `_normalize_symbol` (lines 18-35): uppercase + strip; return
unchanged if it contains `'.'`; append `'.NS'` if some `indian_patterns`
entry occurs as a substring (`pattern in symbol`) or the length exceeds 6;
otherwise return the bare symbol. -/
def _normalize_symbol (symbol : String) : String :=
  let s := trimStr (upperStr symbol)
  if containsDot s then s
  else if indian_patterns.any (fun p => strIn p s) || s.data.length > 6 then
    s ++ ".NS"
  else s

/-- The ordered list of candidate ticker strings that `get_stock_info`
(lines 44-69) tries for one raw input, read off from its control flow:
the normalized symbol first; if that ends in `'.NS'` (line 51) the single
fallback `symbol + '.BO'` (note: built from the *raw* `symbol`, line 53);
otherwise, if the normalized symbol has no `'.'` (line 60), the fallbacks
`symbol + '.NS'` and `symbol + '.BO'` (line 63); otherwise no fallback. -/
def candidates (symbol : String) : List String :=
  let n := _normalize_symbol symbol
  if endsWithStr n ".NS" then [n, symbol ++ ".BO"]
  else if containsDot n then [n]
  else [n, symbol ++ ".NS", symbol ++ ".BO"]

/-! ### Upstream provider model (`yfinance`) and the data model -/

/-- One row of the provider's history table `ticker.history(...)`: date index,
`'Close'` column and `'Volume'` column (the only columns the code reads). -/
structure HistRow where
  date : ℕ
  close : ℚ
  volume : ℚ
deriving DecidableEq, Repr

/-- The quote snapshot `ticker.info`: exactly the keys the code reads, each
`none` when the provider omits the key (Python `dict.get` default paths). -/
structure Info where
  currentPrice : Option ℚ := none
  longName : Option String := none
  shortName : Option String := none
  trailingPE : Option ℚ := none
  forwardPE : Option ℚ := none
  dividendYield : Option ℚ := none
  priceToBook : Option ℚ := none
  debtToEquity : Option ℚ := none
  returnOnEquity : Option ℚ := none
  marketCap : Option ℚ := none
  volume : Option ℚ := none
  currency : Option String := none
  exchange : Option String := none
deriving DecidableEq, Repr

/-- Outcome of trying one candidate symbol against `yfinance`: either an
exception escapes `ticker.info` / `ticker.history` (timeout, malformed
response), or a snapshot and a (possibly empty) history table come back. -/
inductive FetchResult where
  | raises : FetchResult
  | ok : Info → List HistRow → FetchResult
deriving DecidableEq

/-- The upstream market-data provider as an oracle from candidate symbol to
fetch outcome (deterministic within one analysis run). -/
def Provider : Type := String → FetchResult

/-- The history table a candidate yields (`[]` when the fetch raises; only
used under a no-raise hypothesis). -/
def histOf (f : Provider) (c : String) : List HistRow :=
  match f c with
  | FetchResult.raises => []
  | FetchResult.ok _ h => h

/-- The quote snapshot a candidate yields (default when the fetch raises;
only used under a no-raise hypothesis). -/
def infoOf (f : Provider) (c : String) : Info :=
  match f c with
  | FetchResult.raises => {}
  | FetchResult.ok i _ => i

/-- The `stock_data` dict built at lines 90-107. `Option ℚ` fields are
`none` for the code's `'N/A'` / `None` sentinels. -/
structure StockData where
  symbol : String
  normalized_symbol : String
  company_name : String
  current_price : ℚ
  six_month_change : ℚ
  pe_ratio : Option ℚ
  forward_pe : Option ℚ
  dividend_yield : Option ℚ
  price_to_book : Option ℚ
  debt_to_equity : Option ℚ
  roe : Option ℚ
  market_cap : Option ℚ
  volume : Option ℚ
  price_history : List (ℕ × ℚ)
  currency : String
  exchange : String
deriving DecidableEq, Repr

/-! ### Record construction (`get_stock_info`, lines 75-109) -/

/-- The `'Close'` column of a history table. -/
def closes (hist : List HistRow) : List ℚ := hist.map (fun r => r.close)

/-- Lines 76-79: `six_month_change` is `(last - first) / first * 100` over the
`'Close'` column when the table has more than one row, else `0`. -/
def six_month_change_of (hist : List HistRow) : ℚ :=
  if 1 < hist.length then
    ((closes hist).getLastD 0 - (closes hist).headD 0) / (closes hist).headD 0
      * 100
  else 0

/-- Lines 82-84 and 94: prefer `info['currentPrice']`; when it is `None` or
`0`, fall back to the last close (or `0` for an empty table, line 84); the
final `float(current_price) if current_price else 0` (line 94) maps a falsy
value to `0`. -/
def currentPriceOf (info : Info) (hist : List HistRow) : ℚ :=
  let cp : ℚ :=
    match info.currentPrice with
    | none => (closes hist).getLastD 0
    | some v => if v = 0 then (closes hist).getLastD 0 else v
  if cp = 0 then 0 else cp

/-- Python truthy-`or` on an optional string against a fallback (line 87:
`info.get('longName') or info.get('shortName') or symbol`; the empty string
is falsy). -/
def orString (a : Option String) (b : String) : String :=
  match a with
  | none => b
  | some s => if s = "" then b else s

/-- Lines 98 and 101: `info.get(k, 0) * 100 if info.get(k) else None` —
a missing or zero (falsy) provider fraction becomes the `None` sentinel,
otherwise the fraction is scaled to a percent. -/
def pctField (v : Option ℚ) : Option ℚ :=
  match v with
  | none => none
  | some x => if x = 0 then none else some (x * 100)

/-- The `stock_data` dict literal (lines 90-107), for the accepted candidate
`normalized` with its snapshot `info` and history `hist`. -/
def buildRecord (symbol normalized : String) (info : Info)
    (hist : List HistRow) : StockData where
  symbol := symbol
  normalized_symbol := normalized
  company_name := orString info.longName (orString info.shortName symbol)
  current_price := currentPriceOf info hist
  six_month_change := six_month_change_of hist
  pe_ratio := info.trailingPE
  forward_pe := info.forwardPE
  dividend_yield := pctField info.dividendYield
  price_to_book := info.priceToBook
  debt_to_equity := info.debtToEquity
  roe := pctField info.returnOnEquity
  market_cap := info.marketCap
  volume :=
    match info.volume with
    | some v => some v
    | none => (hist.getLast?).map (fun r => r.volume)
  price_history := hist.map (fun r => (r.date, r.close))
  currency := info.currency.getD "USD"
  exchange := info.exchange.getD "Unknown"

/-! ### Fetch orchestration (`get_stock_info`, lines 37-113)

The single `try`/`except` spanning lines 39-113 means any raise anywhere in
the body returns `None` (line 113); each step function below threads the
mutable locals `normalized_symbol`, `info`, `hist_data` explicitly. -/

/-- Lines 71-109: after the retry ladder, return `None` for an empty history,
else the record built from the surviving locals. -/
def finalize (symbol normalized : String) (info : Info)
    (hist : List HistRow) : Option StockData :=
  if hist = [] then none else some (buildRecord symbol normalized info hist)

/-- Lines 59-69: if the history is still empty and the normalized symbol has
no `'.'`, retry with `symbol + '.NS'` then `symbol + '.BO'` (raw `symbol`,
line 63), breaking on the first non-empty history (line 67-69, which also
reassigns `normalized_symbol`); the loop's last iteration otherwise leaves
its own (empty) `hist_data` and `info` behind for line 71. -/
def afterSecond (f : Provider) (symbol normalized : String) (info : Info)
    (hist : List HistRow) : Option StockData :=
  if hist = [] ∧ ¬ containsDot normalized then
    match f (symbol ++ ".NS") with
    | FetchResult.raises => none
    | FetchResult.ok i1 h1 =>
      if h1 ≠ [] then finalize symbol (symbol ++ ".NS") i1 h1
      else
        match f (symbol ++ ".BO") with
        | FetchResult.raises => none
        | FetchResult.ok i2 h2 =>
          if h2 ≠ [] then finalize symbol (symbol ++ ".BO") i2 h2
          else finalize symbol normalized i2 h2
  else finalize symbol normalized info hist

/-- Lines 50-57: if the history is empty and the normalized symbol ends in
`'.NS'`, refetch with `symbol + '.BO'` (raw `symbol`, line 53) and reassign
`normalized_symbol` to it whether or not that second history is empty
(line 57). -/
def afterFirst (f : Provider) (symbol normalized : String) (info : Info)
    (hist : List HistRow) : Option StockData :=
  if hist = [] ∧ endsWithStr normalized ".NS" then
    match f (symbol ++ ".BO") with
    | FetchResult.raises => none
    | FetchResult.ok i2 h2 => afterSecond f symbol (symbol ++ ".BO") i2 h2
  else afterSecond f symbol normalized info hist

/-- Model of `get_stock_info` (lines 37-113): normalize, fetch, run the two
fallback ladders, then finalize; any raise yields `None` via the enclosing
`except` (lines 111-113). -/
def get_stock_info (f : Provider) (symbol : String) : Option StockData :=
  let normalized := _normalize_symbol symbol
  match f normalized with
  | FetchResult.raises => none
  | FetchResult.ok info hist => afterFirst f symbol normalized info hist

/-- Model of `analyze_stocks` (lines 115-127): fetch each symbol in order and
keep the successes, keyed by the original symbol (the Python dict is an
association list here; the input symbols of interest are distinct, as dict
keys would dedupe). A failed symbol is skipped, not fatal. -/
def analyze_stocks (f : Provider) (symbols : List String) :
    List (String × StockData) :=
  symbols.foldl
    (fun results symbol =>
      match get_stock_info f symbol with
      | some d => results ++ [(symbol, d)]
      | none => results) []

/-! ### Correlation engine (`calculate_correlations`, lines 129-156)

`pd.DataFrame(price_data)` outer-joins the series on their date indices
(sorted union of dates) and `dropna()` keeps exactly the rows whose date is
present in every series; `df.corr()` computes pairwise Pearson coefficients
over those rows, producing `NaN` for a pair whose aligned columns have zero
variance product.  The whole body sits in a `try`/`except` returning `None`,
but the embedded function is total, so no raise can occur. -/

/-- Lines 133-137: keep the (symbol, price series) pairs whose series is
non-empty, in dict order. -/
def usableCols (sd : List (String × StockData)) :
    List (String × List (ℕ × ℚ)) :=
  sd.filterMap (fun p =>
    if p.2.price_history = [] then none else some (p.1, p.2.price_history))

/-- The aligned row index after `pd.DataFrame(price_data).dropna()`: the
dates present in every series, sorted ascending (each well-formed series has
no duplicate dates, so `dedup` only removes cross-series repeats). -/
def sharedDatesOf (cols : List (List (ℕ × ℚ))) : List ℕ :=
  List.insertionSort (fun a b => a ≤ b)
    (((cols.foldr (fun c acc => c.map Prod.fst ++ acc) []).dedup).filter
      (fun d => cols.all (fun c => (c.map Prod.fst).contains d)))

/-- The close a series holds at a given date (`0` unused: alignment only
looks up dates present in the series). -/
def lookupClose (s : List (ℕ × ℚ)) (d : ℕ) : ℚ :=
  match s.find? (fun r => r.1 == d) with
  | some r => r.2
  | none => 0

/-- One aligned column: the series' closes at the shared dates, in index
order. -/
def alignSeries (ds : List ℕ) (s : List (ℕ × ℚ)) : List ℚ :=
  ds.map (lookupClose s)

/-- `n·Σxy − Σx·Σy` over two equal-length columns: `n²` times the sample
covariance of the columns, the numerator scale `pandas.nancorr` works at. -/
def scov (xs ys : List ℚ) : ℚ :=
  (xs.length : ℚ) * (List.zipWith (fun a b => a * b) xs ys).sum
    - xs.sum * ys.sum

/-- `n·Σx² − (Σx)²`: `n²` times the sample variance of a column. -/
def svar (xs : List ℚ) : ℚ := scov xs xs

/-- One cell of `df.corr()` between aligned columns `xs`, `ys`, as the signed
square `r * |r|` of the Pearson coefficient
`r = scov / sqrt(svar xs * svar ys)` (see the file header); `none` is the
`NaN` that `pandas` produces when the variance product is zero (constant
column, or a single aligned row). -/
def pearsonSSq (xs ys : List ℚ) : Option ℚ :=
  if svar xs * svar ys = 0 then none
  else some (scov xs ys * |scov xs ys| / (svar xs * svar ys))

/-- `df.corr()` over labelled aligned columns: one row per column, each row
holding a labelled cell per column. -/
def corrMatrix (cols : List (String × List ℚ)) :
    List (String × List (String × Option ℚ)) :=
  cols.map (fun c => (c.1, cols.map (fun c2 => (c2.1, pearsonSSq c.2 c2.2))))

/-- Model of `calculate_correlations` (lines 129-156): collect the usable
series; `None` below 2 of them; align on shared dates; `None` when no row
survives `dropna()`; else the correlation matrix. -/
def calculate_correlations (sd : List (String × StockData)) :
    Option (List (String × List (String × Option ℚ))) :=
  let pd := usableCols sd
  if pd.length < 2 then none
  else
    let ds := sharedDatesOf (pd.map Prod.snd)
    if ds = [] then none
    else some (corrMatrix (pd.map (fun p => (p.1, alignSeries ds p.2))))

/-- The aligned columns (unlabelled) an input induces, for stating variance
side conditions. -/
def alignedColumns (sd : List (String × StockData)) : List (List ℚ) :=
  (usableCols sd).map (fun p =>
    alignSeries (sharedDatesOf ((usableCols sd).map Prod.snd)) p.2)

/-- Positional cell access in a correlation matrix (total, with defaults;
coincides with the real cell for in-range indices). -/
def cellD (m : List (String × List (String × Option ℚ))) (i j : ℕ) :
    Option ℚ :=
  (((m.getD i ("", [])).2).getD j ("", none)).2

/-- A record carrying only a given price history (the correlation engine
reads no other field), for concrete instantiations. -/
def mkRec (ph : List (ℕ × ℚ)) : StockData where
  symbol := ""
  normalized_symbol := ""
  company_name := ""
  current_price := 0
  six_month_change := 0
  pe_ratio := none
  forward_pe := none
  dividend_yield := none
  price_to_book := none
  debt_to_equity := none
  roe := none
  market_cap := none
  volume := none
  price_history := ph
  currency := "USD"
  exchange := "Unknown"

/-- The first-non-empty-history scan that the retry ladder of
`get_stock_info` implements: walk the candidates in order; a raise aborts
with `none`; an empty history moves on; the first non-empty history wins. -/
def scanCandidates (f : Provider) : List String →
    Option (String × Info × List HistRow)
  | [] => none
  | c :: cs =>
    match f c with
    | FetchResult.raises => none
    | FetchResult.ok i h =>
      if h = [] then scanCandidates f cs else some (c, i, h)

/-! ### Definitions modelled from the claims (for refinement comparison) -/

/-- Modelled from the spec wording of claim C4 (not from the source): the
candidate order the claim asserts — a suffixed input is the sole candidate;
an Indian-set/long input gives the `.NS` form then the `.BO` form; any other
input gives the bare form then the `.NS` and `.BO` forms, all built from the
uppercased, trimmed input. -/
def specCandidates (symbol : String) : List String :=
  let s := trimStr (upperStr symbol)
  if containsDot s then [s]
  else if indian_patterns.any (fun p => strIn p s) || s.data.length > 6 then
    [s ++ ".NS", s ++ ".BO"]
  else [s, s ++ ".NS", s ++ ".BO"]

/-- The amended candidate order (what the code actually tries) for an input
already equal to its uppercased, trimmed form: an input containing `'.'` is
the sole candidate unless it ends in `'.NS'`, in which case the input with
`'.BO'` appended is a second candidate; the Indian-set/long branch and the
bare branch are as the claim states. -/
def amendedCandidates (s : String) : List String :=
  if containsDot s then
    if endsWithStr s ".NS" then [s, s ++ ".BO"] else [s]
  else if indian_patterns.any (fun p => strIn p s) || s.data.length > 6 then
    [s ++ ".NS", s ++ ".BO"]
  else [s, s ++ ".NS", s ++ ".BO"]

/-! ### Concrete fixtures for witnesses and counterexamples -/

/-- A two-row history table. -/
def histA : List HistRow := [⟨0, 1, 10⟩, ⟨1, 2, 20⟩]

/-- A provider on which only the candidate `"AAPL.BO"` has rows: the first
two candidates of `"AAPL"` resolve to empty history, the third to `histA`;
every candidate of any other symbol is empty. -/
def pOk : Provider := fun c =>
  if c = "AAPL.BO" then FetchResult.ok {} histA else FetchResult.ok {} []

/-- A provider whose fetch of `"AAPL"` itself raises while the later
candidate `"AAPL.NS"` has rows. -/
def pRaise : Provider := fun c =>
  if c = "AAPL" then FetchResult.raises else FetchResult.ok {} histA

/-- Quote snapshot with a dividend-yield fraction of `1/40 = 0.025` and an
ROE fraction of `0`. -/
def infoDiv : Info := { dividendYield := some (1/40), returnOnEquity := some 0 }

/-- Quote snapshot with a live price of `7`. -/
def infoPx : Info := { currentPrice := some 7 }

/-- Two single-point price series sharing their one date: enough usable
series and one overlapping row, yet zero variance. -/
def sdOne : List (String × StockData) :=
  [("A", mkRec [(0, 1)]), ("B", mkRec [(0, 2)])]

/-- Two two-point price series on the same two dates, both non-constant. -/
def sdPair : List (String × StockData) :=
  [("A", mkRec [(0, 1), (1, 2)]), ("B", mkRec [(0, 2), (1, 1)])]

/-! ### Sanity checks of the embedding on concrete inputs -/

example : _normalize_symbol "AAPL" = "AAPL" := by decide
example : _normalize_symbol "RELIANCE" = "RELIANCE.NS" := by decide
example : _normalize_symbol "tcs.ns " = "TCS.NS" := by decide
example : candidates "AAPL" = ["AAPL", "AAPL.NS", "AAPL.BO"] := by decide
example : candidates "RELIANCE" = ["RELIANCE.NS", "RELIANCE.BO"] := by decide
example : candidates "TCS.NS" = ["TCS.NS", "TCS.NS.BO"] := by decide
example : candidates "TCS.BO" = ["TCS.BO"] := by decide
example : _normalize_symbol "SALT" = "SALT.NS" := by decide

example : calculate_correlations [("A", mkRec [(0, 1)])] = none := by decide
example : calculate_correlations [("A", mkRec [(0, 1)]), ("B", mkRec [])] =
    none := by decide
example : calculate_correlations
    [("A", mkRec [(0, 1)]), ("B", mkRec [(1, 2)])] = none := by decide
example : calculate_correlations sdOne =
    some (corrMatrix [("A", [1]), ("B", [2])]) := rfl
example : corrMatrix [("A", [1]), ("B", [2])] =
    [("A", [("A", none), ("B", none)]),
     ("B", [("A", none), ("B", none)])] := by
  norm_num [corrMatrix, pearsonSSq, svar, scov]
example : calculate_correlations sdPair =
    some (corrMatrix [("A", [1, 2]), ("B", [2, 1])]) := rfl
example : corrMatrix [("A", [1, 2]), ("B", [2, 1])] =
    [("A", [("A", some 1), ("B", some (-1))]),
     ("B", [("A", some (-1)), ("B", some 1)])] := by
  norm_num [corrMatrix, pearsonSSq, svar, scov]

/-! ### Helper lemmas about the string model -/

theorem leadMatch_self_append (p t : List Char) : leadMatch p (p ++ t) = true := by
  induction p with
  | nil => rfl
  | cons c ps ih => simp [leadMatch, ih]

theorem endsWithStr_append (s suf : String) :
    endsWithStr (s ++ suf) suf = true := by
  have : (s ++ suf).data = s.data ++ suf.data := String.data_append s suf
  simp only [endsWithStr, this, List.reverse_append]
  exact leadMatch_self_append _ _

theorem containsDot_append_BO (s : String) :
    containsDot (s ++ ".BO") = true := by
  have : (s ++ ".BO").data = s.data ++ ('.' :: 'B' :: 'O' :: []) :=
    String.data_append s ".BO"
  simp [containsDot, this]

theorem containsDot_of_endsWith_NS (s : String)
    (h : endsWithStr s ".NS" = true) : containsDot s = true := by
  simp only [endsWithStr] at h
  match hrev : s.data.reverse with
  | [] => rw [hrev] at h; simp [leadMatch] at h
  | [c] => rw [hrev] at h; simp [leadMatch] at h
  | [c, c2] => rw [hrev] at h; simp [leadMatch] at h
  | c :: c2 :: c3 :: t =>
    rw [hrev] at h
    simp only [leadMatch, Bool.and_eq_true, beq_iff_eq] at h
    have hdot : '.' ∈ s.data.reverse := by
      rw [hrev]
      simp [h.2.2.1.symm]
    have : '.' ∈ s.data := List.mem_reverse.mp hdot
    simp [containsDot, List.contains, this]

/-- The three shapes of the candidate ladder: a normalized symbol ending in
`'.NS'`. -/
theorem candidates_of_endsWith (symbol : String)
    (h : endsWithStr (_normalize_symbol symbol) ".NS" = true) :
    candidates symbol = [_normalize_symbol symbol, symbol ++ ".BO"] := by
  simp [candidates, h]

/-- Candidate ladder shape for a suffixed symbol not ending in `'.NS'`. -/
theorem candidates_of_dot (symbol : String)
    (h1 : endsWithStr (_normalize_symbol symbol) ".NS" = false)
    (h2 : containsDot (_normalize_symbol symbol) = true) :
    candidates symbol = [_normalize_symbol symbol] := by
  simp [candidates, h1, h2]

/-- Candidate ladder shape for a bare symbol. -/
theorem candidates_of_bare (symbol : String)
    (h1 : endsWithStr (_normalize_symbol symbol) ".NS" = false)
    (h2 : containsDot (_normalize_symbol symbol) = false) :
    candidates symbol =
      [_normalize_symbol symbol, symbol ++ ".NS", symbol ++ ".BO"] := by
  simp [candidates, h1, h2]

/-! ### Characterization of the fetch orchestration -/

/-- `get_stock_info` is exactly the first-non-empty scan over its candidate
ladder, finished by building the record from the winning candidate's own
snapshot and history. -/
theorem get_stock_info_eq_scan (f : Provider) (symbol : String) :
    get_stock_info f symbol =
      (scanCandidates f (candidates symbol)).map
        (fun t => buildRecord symbol t.1 t.2.1 t.2.2) := by
  by_cases hNS : endsWithStr (_normalize_symbol symbol) ".NS" = true
  · rw [candidates_of_endsWith symbol hNS]
    simp only [get_stock_info, scanCandidates]
    cases hf : f (_normalize_symbol symbol) with
    | raises => rfl
    | ok i h =>
      by_cases hh : h = []
      · subst hh
        simp only [afterFirst, hNS, and_true, if_pos rfl, reduceIte]
        cases hf2 : f (symbol ++ ".BO") with
        | raises => rfl
        | ok i2 h2 =>
          simp only [afterSecond, containsDot_append_BO symbol]
          by_cases hh2 : h2 = []
          · simp [finalize, scanCandidates, hh2]
          · simp [finalize, scanCandidates, hh2]
      · simp [afterFirst, afterSecond, finalize, hh]
  · have hNS' : endsWithStr (_normalize_symbol symbol) ".NS" = false :=
      Bool.not_eq_true _ ▸ Bool.of_not_eq_true hNS
    by_cases hDot : containsDot (_normalize_symbol symbol) = true
    · rw [candidates_of_dot symbol hNS' hDot]
      simp only [get_stock_info, scanCandidates]
      cases hf : f (_normalize_symbol symbol) with
      | raises => rfl
      | ok i h =>
        simp only [afterFirst, hNS', Bool.false_eq_true, and_false,
          if_false, reduceIte, afterSecond, hDot, not_true, finalize]
        by_cases hh : h = [] <;> simp [hh, finalize, scanCandidates]
    · have hDot' : containsDot (_normalize_symbol symbol) = false :=
        Bool.not_eq_true _ ▸ Bool.of_not_eq_true hDot
      rw [candidates_of_bare symbol hNS' hDot']
      simp only [get_stock_info, scanCandidates]
      cases hf : f (_normalize_symbol symbol) with
      | raises => rfl
      | ok i h =>
        by_cases hh : h = []
        · subst hh
          simp only [afterFirst, hNS', Bool.false_eq_true, and_false,
            reduceIte, afterSecond, hDot', Bool.false_eq_true, not_false_iff,
            and_true, if_pos rfl]
          cases hf1 : f (symbol ++ ".NS") with
          | raises => rfl
          | ok i1 h1 =>
            by_cases hh1 : h1 = []
            · subst hh1
              simp only [ne_eq, not_true, reduceIte, scanCandidates,
                if_pos rfl]
              cases hf2 : f (symbol ++ ".BO") with
              | raises => rfl
              | ok i2 h2 =>
                by_cases hh2 : h2 = [] <;>
                  simp [hh2, finalize, scanCandidates]
            · simp [hh1, finalize, scanCandidates]
        · simp [afterFirst, afterSecond, finalize, hh]

/-- A non-raising fetch outcome is determined by its snapshot and history
accessors. -/
theorem fetch_ok_of_ne_raises (f : Provider) (c : String)
    (h : f c ≠ FetchResult.raises) :
    f c = FetchResult.ok (infoOf f c) (histOf f c) := by
  cases hf : f c with
  | raises => exact absurd hf h
  | ok i hst => simp [infoOf, histOf, hf]

/-- A successful scan yields the first candidate with non-empty history,
together with that candidate's own snapshot and history. -/
theorem scanCandidates_first (f : Provider) (cs : List String)
    (htotal : ∀ c ∈ cs, f c ≠ FetchResult.raises)
    (k : ℕ) (hk : k < cs.length)
    (hbefore : ∀ j (hj : j < k), histOf f (cs.get ⟨j, hj.trans hk⟩) = [])
    (hfound : histOf f (cs.get ⟨k, hk⟩) ≠ []) :
    scanCandidates f cs =
      some (cs.get ⟨k, hk⟩, infoOf f (cs.get ⟨k, hk⟩),
        histOf f (cs.get ⟨k, hk⟩)) := by
  induction cs generalizing k with
  | nil => exact absurd hk (Nat.not_lt_zero k)
  | cons c cs ih =>
    cases k with
    | zero =>
      have hc : f c = FetchResult.ok (infoOf f c) (histOf f c) :=
        fetch_ok_of_ne_raises f c (htotal c (List.mem_cons_self c cs))
      simp only [List.get] at hfound ⊢
      simp [scanCandidates, hc, hfound]
    | succ k =>
      have hc0 : histOf f c = [] := hbefore 0 (Nat.succ_pos k)
      have hc : f c = FetchResult.ok (infoOf f c) [] := by
        rw [← hc0]
        exact fetch_ok_of_ne_raises f c (htotal c (List.mem_cons_self c cs))
      have hk' : k < cs.length := Nat.lt_of_succ_lt_succ hk
      simp only [scanCandidates, hc, if_pos rfl]
      exact ih (fun x hx => htotal x (List.mem_cons_of_mem c hx)) k hk'
        (fun j hj => hbefore (j + 1) (Nat.succ_lt_succ hj)) hfound

/-- A raise at the first candidate that is reached (all earlier ones
non-raising with empty history) makes the scan abort with `none`. -/
theorem scanCandidates_raise (f : Provider) (cs : List String)
    (k : ℕ) (hk : k < cs.length)
    (hbefore : ∀ j (hj : j < k),
      f (cs.get ⟨j, hj.trans hk⟩) = FetchResult.ok
        (infoOf f (cs.get ⟨j, hj.trans hk⟩)) [])
    (hraise : f (cs.get ⟨k, hk⟩) = FetchResult.raises) :
    scanCandidates f cs = none := by
  induction cs generalizing k with
  | nil => exact absurd hk (Nat.not_lt_zero k)
  | cons c cs ih =>
    cases k with
    | zero =>
      simp only [List.get] at hraise
      simp [scanCandidates, hraise]
    | succ k =>
      have hc : f c = FetchResult.ok (infoOf f c) [] := hbefore 0 (Nat.succ_pos k)
      have hk' : k < cs.length := Nat.lt_of_succ_lt_succ hk
      simp only [scanCandidates, hc, if_pos rfl]
      exact ih k hk' (fun j hj => hbefore (j + 1) (Nat.succ_lt_succ hj)) hraise

/-- Any successful scan result has a non-empty history drawn from its own
candidate. -/
theorem scanCandidates_some (f : Provider) (cs : List String)
    (t : String × Info × List HistRow)
    (h : scanCandidates f cs = some t) :
    t.1 ∈ cs ∧ f t.1 = FetchResult.ok t.2.1 t.2.2 ∧ t.2.2 ≠ [] := by
  induction cs with
  | nil => exact absurd h (by simp [scanCandidates])
  | cons c cs ih =>
    simp only [scanCandidates] at h
    cases hf : f c with
    | raises => rw [hf] at h; exact absurd h (by simp)
    | ok i hst =>
      rw [hf] at h
      dsimp only at h
      by_cases hh : hst = []
      · rw [if_pos hh] at h
        have := ih h
        exact ⟨List.mem_cons_of_mem c this.1, this.2.1, this.2.2⟩
      · rw [if_neg hh] at h
        have ht : t = (c, i, hst) := (Option.some_inj.mp h).symm
        subst ht
        exact ⟨List.mem_cons_self c cs, hf, hh⟩

/-- Every record `get_stock_info` returns is built, in one piece, from some
candidate's own snapshot and non-empty history. -/
theorem get_stock_info_some_shape (f : Provider) (symbol : String)
    (rec : StockData) (h : get_stock_info f symbol = some rec) :
    ∃ c i hist, c ∈ candidates symbol ∧ hist ≠ [] ∧
      rec = buildRecord symbol c i hist := by
  rw [get_stock_info_eq_scan] at h
  cases hscan : scanCandidates f (candidates symbol) with
  | none => rw [hscan] at h; simp at h
  | some t =>
    rw [hscan] at h
    simp only [Option.map, Option.some_inj] at h
    have hmem := scanCandidates_some f (candidates symbol) t hscan
    exact ⟨t.1, t.2.1, t.2.2, hmem.1, hmem.2.2, h.symm⟩

/-- The batch loop is the filterMap of the per-symbol fetch. -/
theorem analyze_stocks_eq_filterMap (f : Provider) (symbols : List String) :
    analyze_stocks f symbols =
      symbols.filterMap
        (fun s => (get_stock_info f s).map (fun d => (s, d))) := by
  have key : ∀ (l : List String) (acc : List (String × StockData)),
      l.foldl
        (fun results symbol =>
          match get_stock_info f symbol with
          | some d => results ++ [(symbol, d)]
          | none => results) acc =
      acc ++ l.filterMap
        (fun s => (get_stock_info f s).map (fun d => (s, d))) := by
    intro l
    induction l with
    | nil => intro acc; simp
    | cons s l ih =>
      intro acc
      cases hs : get_stock_info f s with
      | none => simp [List.foldl_cons, hs, ih]
      | some d => simp [List.foldl_cons, hs, ih]
  simpa using key symbols []

/-- Every record a successful fetch returns carries a non-empty price
history (line 71 drops empty-history resolutions before the record is
built). -/
theorem get_stock_info_price_history_ne_nil (f : Provider) (symbol : String)
    (rec : StockData) (h : get_stock_info f symbol = some rec) :
    rec.price_history ≠ [] := by
  obtain ⟨c, i, hist, _, hne, hrec⟩ := get_stock_info_some_shape f symbol rec h
  subst hrec
  simpa [buildRecord] using hne

/-! ### Correlation arithmetic: Cauchy-Schwarz for the scaled covariance -/

/-- A list sum as a `Finset.range` sum of its `getD` entries. -/
theorem list_sum_eq_range (l : List ℚ) :
    l.sum = ∑ i in Finset.range l.length, l.getD i 0 := by
  induction l with
  | nil => simp
  | cons a l ih =>
    rw [List.sum_cons, ih, List.length_cons, Finset.sum_range_succ']
    simp [List.getD_cons_succ, List.getD_cons_zero, add_comm]

/-- A zipped product sum as a `Finset.range` sum, for equal-length lists. -/
theorem zip_mul_sum_eq_range (xs ys : List ℚ) (h : xs.length = ys.length) :
    (List.zipWith (fun a b => a * b) xs ys).sum =
      ∑ i in Finset.range xs.length, xs.getD i 0 * ys.getD i 0 := by
  induction xs generalizing ys with
  | nil => simp
  | cons a xs ih =>
    cases ys with
    | nil => simp at h
    | cons b ys =>
      have h' : xs.length = ys.length := by simpa using h
      rw [List.zipWith_cons_cons, List.sum_cons, ih ys h', List.length_cons,
        Finset.sum_range_succ']
      simp [List.getD_cons_succ, List.getD_cons_zero, add_comm]

/-- Cauchy-Schwarz for the scaled covariance: `scov² ≤ svar · svar` over two
equal-length columns. -/
theorem scov_sq_le_svar_mul_svar (xs ys : List ℚ) (h : xs.length = ys.length) :
    scov xs ys ^ 2 ≤ svar xs * svar ys := by
  set n := xs.length with hn
  set x : ℕ → ℚ := fun i => xs.getD i 0 with hx
  set y : ℕ → ℚ := fun i => ys.getD i 0 with hy
  have hsx : xs.sum = ∑ i in Finset.range n, x i := list_sum_eq_range xs
  have hsy : ys.sum = ∑ i in Finset.range n, y i := by
    rw [list_sum_eq_range ys, ← h]
  have hsxy : (List.zipWith (fun a b => a * b) xs ys).sum =
      ∑ i in Finset.range n, x i * y i := zip_mul_sum_eq_range xs ys h
  have hscov : scov xs ys =
      (n : ℚ) * (∑ i in Finset.range n, x i * y i) -
        (∑ i in Finset.range n, x i) * (∑ i in Finset.range n, y i) := by
    rw [scov, hsx, hsy, hsxy]
  have hsvarx : svar xs =
      (n : ℚ) * (∑ i in Finset.range n, x i * x i) -
        (∑ i in Finset.range n, x i) * (∑ i in Finset.range n, x i) := by
    rw [svar, scov, hsx]
    rw [zip_mul_sum_eq_range xs xs rfl]
  have hsvary : svar ys =
      (n : ℚ) * (∑ i in Finset.range n, y i * y i) -
        (∑ i in Finset.range n, y i) * (∑ i in Finset.range n, y i) := by
    rw [svar, scov, list_sum_eq_range ys, zip_mul_sum_eq_range ys ys rfl, ← h]
  -- center the columns: `a i = n·x i − Σx`, `b i = n·y i − Σy`
  set Sx := ∑ i in Finset.range n, x i with hSx
  set Sy := ∑ i in Finset.range n, y i with hSy
  have expand : ∀ (u v : ℕ → ℚ),
      ∑ i in Finset.range n,
          ((n : ℚ) * u i - (∑ j in Finset.range n, u j)) *
            ((n : ℚ) * v i - (∑ j in Finset.range n, v j)) =
        (n : ℚ) * ((n : ℚ) * (∑ i in Finset.range n, u i * v i) -
          (∑ i in Finset.range n, u i) * (∑ i in Finset.range n, v i)) := by
    intro u v
    have hpt : ∀ i ∈ Finset.range n,
        ((n : ℚ) * u i - (∑ j in Finset.range n, u j)) *
            ((n : ℚ) * v i - (∑ j in Finset.range n, v j)) =
          (n : ℚ) ^ 2 * (u i * v i)
            - ((n : ℚ) * (∑ j in Finset.range n, v j)) * u i
            - ((n : ℚ) * (∑ j in Finset.range n, u j)) * v i
            + (∑ j in Finset.range n, u j) * (∑ j in Finset.range n, v j) := by
      intro i _
      ring
    rw [Finset.sum_congr rfl hpt]
    simp only [Finset.sum_add_distrib, Finset.sum_sub_distrib,
      ← Finset.mul_sum, Finset.sum_const, Finset.card_range, nsmul_eq_mul]
    ring
  have hCS := Finset.sum_mul_sq_le_sq_mul_sq (Finset.range n)
    (fun i => (n : ℚ) * x i - Sx) (fun i => (n : ℚ) * y i - Sy)
  have hab : ∑ i in Finset.range n,
      ((n : ℚ) * x i - Sx) * ((n : ℚ) * y i - Sy) = (n : ℚ) * scov xs ys := by
    rw [hscov]; exact expand x y
  have haa : ∑ i in Finset.range n,
      ((n : ℚ) * x i - Sx) ^ 2 = (n : ℚ) * svar xs := by
    rw [hsvarx]
    have := expand x x
    calc ∑ i in Finset.range n, ((n : ℚ) * x i - Sx) ^ 2
        = ∑ i in Finset.range n,
            ((n : ℚ) * x i - Sx) * ((n : ℚ) * x i - Sx) := by
          apply Finset.sum_congr rfl; intro i _; ring
      _ = _ := this
  have hbb : ∑ i in Finset.range n,
      ((n : ℚ) * y i - Sy) ^ 2 = (n : ℚ) * svar ys := by
    rw [hsvary]
    have := expand y y
    calc ∑ i in Finset.range n, ((n : ℚ) * y i - Sy) ^ 2
        = ∑ i in Finset.range n,
            ((n : ℚ) * y i - Sy) * ((n : ℚ) * y i - Sy) := by
          apply Finset.sum_congr rfl; intro i _; ring
      _ = _ := this
  rw [hab, haa, hbb] at hCS
  rcases Nat.eq_zero_or_pos n with hn0 | hnpos
  · have hxs : xs = [] := List.length_eq_zero.mp hn0
    have hys : ys = [] := List.length_eq_zero.mp (by rw [← h]; exact hn0)
    subst hxs; subst hys
    simp [scov, svar]
  · have hnq : (0 : ℚ) < (n : ℚ) := by exact_mod_cast hnpos
    have h2 : ((n : ℚ) * scov xs ys) ^ 2 =
        (n : ℚ) ^ 2 * scov xs ys ^ 2 := by ring
    have h3 : (n : ℚ) * svar xs * ((n : ℚ) * svar ys) =
        (n : ℚ) ^ 2 * (svar xs * svar ys) := by ring
    rw [h2, h3] at hCS
    have hn2 : (0 : ℚ) < (n : ℚ) ^ 2 := by positivity
    exact le_of_mul_le_mul_left hCS hn2

/-- The scaled variance of a column is non-negative. -/
theorem svar_nonneg (xs : List ℚ) : 0 ≤ svar xs := by
  have h := Finset.sum_mul_sq_le_sq_mul_sq (Finset.range xs.length)
    (fun _ => (1 : ℚ)) (fun i => xs.getD i 0)
  simp only [one_mul, one_pow, Finset.sum_const, Finset.card_range,
    nsmul_eq_mul, mul_one] at h
  have hsum : xs.sum = ∑ i in Finset.range xs.length, xs.getD i 0 :=
    list_sum_eq_range xs
  have hzip : (List.zipWith (fun a b => a * b) xs xs).sum =
      ∑ i in Finset.range xs.length, xs.getD i 0 * xs.getD i 0 :=
    zip_mul_sum_eq_range xs xs rfl
  have hsq : ∑ i in Finset.range xs.length, xs.getD i 0 ^ 2 =
      ∑ i in Finset.range xs.length, xs.getD i 0 * xs.getD i 0 := by
    apply Finset.sum_congr rfl; intro i _; ring
  rw [hsq] at h
  rw [svar, scov, hzip, hsum]
  have hsq2 : (∑ i in Finset.range xs.length, xs.getD i 0) ^ 2 =
      (∑ i in Finset.range xs.length, xs.getD i 0) *
        (∑ i in Finset.range xs.length, xs.getD i 0) := sq _
  linarith [h, hsq2]

/-- The scaled covariance is symmetric over equal-length columns. -/
theorem scov_comm (xs ys : List ℚ) (h : xs.length = ys.length) :
    scov xs ys = scov ys xs := by
  rw [scov, scov, h,
    List.zipWith_comm_of_comm (fun a b => a * b) mul_comm xs ys,
    mul_comm ys.sum xs.sum]

/-- A correlation cell is symmetric over equal-length columns. -/
theorem pearsonSSq_comm (xs ys : List ℚ) (h : xs.length = ys.length) :
    pearsonSSq xs ys = pearsonSSq ys xs := by
  rw [pearsonSSq, pearsonSSq, scov_comm xs ys h, mul_comm (svar xs) (svar ys)]

/-- A diagonal correlation cell of a column with non-zero scaled variance is
exactly `1` (Pearson `r = 1`, so `r·|r| = 1`). -/
theorem pearsonSSq_self (xs : List ℚ) (h : svar xs ≠ 0) :
    pearsonSSq xs xs = some 1 := by
  rw [pearsonSSq, if_neg (mul_ne_zero h h)]
  have h1 : scov xs xs = svar xs := rfl
  rw [h1, abs_of_nonneg (svar_nonneg xs), div_self (mul_ne_zero h h)]

/-- Aligned columns all have one row per shared date. -/
theorem alignSeries_length (ds : List ℕ) (s : List (ℕ × ℚ)) :
    (alignSeries ds s).length = ds.length := List.length_map ds _

/-- A successful correlation run returns the matrix over the aligned usable
columns, and in particular had at least two usable series and at least one
shared date. -/
theorem calc_corr_some_eq (sd : List (String × StockData))
    (m : List (String × List (String × Option ℚ)))
    (hm : calculate_correlations sd = some m) :
    m = corrMatrix ((usableCols sd).map
        (fun p => (p.1, alignSeries
          (sharedDatesOf ((usableCols sd).map Prod.snd)) p.2))) ∧
      ¬ (usableCols sd).length < 2 ∧
      sharedDatesOf ((usableCols sd).map Prod.snd) ≠ [] := by
  simp only [calculate_correlations] at hm
  by_cases h1 : (usableCols sd).length < 2
  · rw [if_pos h1] at hm; exact absurd hm (by simp)
  · rw [if_neg h1] at hm
    by_cases h2 : sharedDatesOf ((usableCols sd).map Prod.snd) = []
    · rw [if_pos h2] at hm; exact absurd hm (by simp)
    · rw [if_neg h2] at hm
      exact ⟨(Option.some_inj.mp hm).symm, h1, h2⟩

/-- Positional cell access in `corrMatrix` is the Pearson cell of the two
columns. -/
theorem cellD_corrMatrix (cols : List (String × List ℚ)) (i j : ℕ)
    (hi : i < cols.length) (hj : j < cols.length) :
    cellD (corrMatrix cols) i j =
      pearsonSSq (cols.get ⟨i, hi⟩).2 (cols.get ⟨j, hj⟩).2 := by
  have hi' : i < (corrMatrix cols).length := by
    simpa [corrMatrix, List.length_map] using hi
  rw [cellD, List.getD_eq_getElem _ _ hi']
  have h1 : (corrMatrix cols)[i] =
      ((cols.get ⟨i, hi⟩).1,
        cols.map (fun c2 => (c2.1, pearsonSSq (cols.get ⟨i, hi⟩).2 c2.2))) := by
    simp [corrMatrix, List.getElem_map, List.get_eq_getElem]
  rw [h1]
  have hj' : j < (cols.map
      (fun c2 => (c2.1, pearsonSSq (cols.get ⟨i, hi⟩).2 c2.2))).length := by
    simpa [List.length_map] using hj
  rw [List.getD_eq_getElem _ _ hj']
  simp [List.getElem_map, List.get_eq_getElem]

/-- Every defined correlation cell lies in `[-1, 1]` (the signed square
`r·|r|` of the Pearson coefficient is in `[-1, 1]` exactly when `r` is). -/
theorem pearsonSSq_mem_Icc (xs ys : List ℚ) (h : xs.length = ys.length)
    (q : ℚ) (hq : pearsonSSq xs ys = some q) : -1 ≤ q ∧ q ≤ 1 := by
  rw [pearsonSSq] at hq
  by_cases hz : svar xs * svar ys = 0
  · rw [if_pos hz] at hq; exact absurd hq (by simp)
  · rw [if_neg hz] at hq
    have hqe : q = scov xs ys * |scov xs ys| / (svar xs * svar ys) :=
      (Option.some_inj.mp hq).symm
    have hx : 0 ≤ svar xs := svar_nonneg xs
    have hy : 0 ≤ svar ys := svar_nonneg ys
    have hpos : 0 < svar xs * svar ys :=
      lt_of_le_of_ne (mul_nonneg hx hy) (Ne.symm hz)
    have hb : scov xs ys ^ 2 ≤ svar xs * svar ys :=
      scov_sq_le_svar_mul_svar xs ys h
    have habs : |q| ≤ 1 := by
      rw [hqe, abs_div, abs_of_pos hpos, abs_mul, abs_abs]
      rw [div_le_one hpos]
      calc |scov xs ys| * |scov xs ys| = |scov xs ys| ^ 2 := by ring
        _ = scov xs ys ^ 2 := sq_abs _
        _ ≤ svar xs * svar ys := hb
    exact abs_le.mp habs

/-- The last entry of the stored close column is the close of the last
history row. -/
theorem closes_getLastD (hist : List HistRow) (hne : hist ≠ []) :
    (closes hist).getLastD 0 = (hist.getLast hne).close := by
  have h1 : (closes hist).getLast? = (hist.getLast? ).map (fun r => r.close) :=
    List.getLast?_map _ hist
  have h2 : hist.getLast? = some (hist.getLast hne) :=
    List.getLast?_eq_getLast hist hne
  rw [List.getLastD_eq_getLast?, h1, h2]
  rfl

/-! ## Claim theorems -/

/-- Claim C1: for every record the fetch returns, the 6-month percent change
equals `(last close − first close) / first close × 100` over the stored
closing series when it has at least 2 points, and is `0` when it has fewer
than 2 points. -/
theorem claim_C1_six_month_change (f : Provider) (symbol : String)
    (rec : StockData) (h : get_stock_info f symbol = some rec) :
    (2 ≤ rec.price_history.length →
      rec.six_month_change =
        ((rec.price_history.map Prod.snd).getLastD 0 -
            (rec.price_history.map Prod.snd).headD 0) /
          (rec.price_history.map Prod.snd).headD 0 * 100) ∧
    (rec.price_history.length < 2 → rec.six_month_change = 0) := by
  obtain ⟨c, i, hist, _, hne, hrec⟩ := get_stock_info_some_shape f symbol rec h
  subst hrec
  have hmap : ((buildRecord symbol c i hist).price_history.map Prod.snd) =
      closes hist := by
    simp [buildRecord, closes, List.map_map, Function.comp]
  have hlen : (buildRecord symbol c i hist).price_history.length =
      hist.length := by
    simp [buildRecord, List.length_map]
  constructor
  · intro h2
    rw [hlen] at h2
    have h1 : 1 < hist.length := h2
    rw [hmap]
    show six_month_change_of hist = _
    rw [six_month_change_of, if_pos h1]
  · intro h2
    rw [hlen] at h2
    have h1 : ¬ 1 < hist.length := by omega
    show six_month_change_of hist = 0
    rw [six_month_change_of, if_neg h1]

/-- Witness for C1 on an accepted two-row history. -/
theorem claim_C1_witness :
    (buildRecord "AAPL" "AAPL.BO" {} histA).six_month_change =
      (((buildRecord "AAPL" "AAPL.BO" {} histA).price_history.map
            Prod.snd).getLastD 0 -
          ((buildRecord "AAPL" "AAPL.BO" {} histA).price_history.map
            Prod.snd).headD 0) /
        ((buildRecord "AAPL" "AAPL.BO" {} histA).price_history.map
          Prod.snd).headD 0 * 100 :=
  (claim_C1_six_month_change pOk "AAPL" (buildRecord "AAPL" "AAPL.BO" {} histA)
    rfl).1 (by decide)

/-- Claim C2: the correlation engine returns `none` exactly when fewer than
2 records have a non-empty price series, or aligning the usable series on
shared dates leaves zero overlapping rows; being a total function, it never
raises, and in those insufficient-data cases it returns absence rather than
any (degenerate) matrix. -/
theorem claim_C2_absent_iff_insufficient (sd : List (String × StockData)) :
    calculate_correlations sd = none ↔
      ((usableCols sd).length < 2 ∨
        sharedDatesOf ((usableCols sd).map Prod.snd) = []) := by
  simp only [calculate_correlations]
  by_cases h1 : (usableCols sd).length < 2
  · simp [h1]
  · rw [if_neg h1]
    by_cases h2 : sharedDatesOf ((usableCols sd).map Prod.snd) = []
    · simp [h1, h2]
    · simp [h1, h2]

/-- Counterexample to claim C4 as stated: the input `"TCS.NS"` already
contains the exchange-suffix delimiter, so the claim makes it the sole
candidate, but the code's ladder also tries `"TCS.NS.BO"` (raw input plus
`'.BO'`) when the first fetch yields no rows. -/
theorem claim_C4_counterexample :
    candidates "TCS.NS" = ["TCS.NS", "TCS.NS.BO"] ∧
    specCandidates "TCS.NS" = ["TCS.NS"] ∧
    candidates "TCS.NS" ≠ specCandidates "TCS.NS" := by
  refine ⟨by decide, by decide, by decide⟩

/-- Claim C4 (amended): for inputs already equal to their uppercased,
trimmed form, the candidate ladder is: a `'.'`-containing input not ending
in `'.NS'` is the sole candidate; one ending in `'.NS'` is followed by the
input with `'.BO'` appended; an Indian-substring or longer-than-6 input
yields the `'.NS'` form then the `'.BO'` form; any other input yields the
bare form, then the `'.NS'` and `'.BO'` forms. -/
theorem claim_C4_amended_candidate_order (s : String)
    (h : trimStr (upperStr s) = s) :
    candidates s = amendedCandidates s := by
  by_cases hd : containsDot s = true
  · have hn : _normalize_symbol s = s := by
      simp only [_normalize_symbol, h]
      rw [if_pos hd]
    by_cases hNS : endsWithStr s ".NS" = true
    · rw [candidates_of_endsWith s (by rw [hn]; exact hNS), hn,
        amendedCandidates, if_pos hd, if_pos hNS]
    · have hNS' : endsWithStr s ".NS" = false := Bool.of_not_eq_true hNS
      rw [candidates_of_dot s (by rw [hn]; exact hNS') (by rw [hn]; exact hd),
        hn, amendedCandidates, if_pos hd, if_neg (by simp [hNS'])]
  · have hd' : containsDot s = false :=
      Bool.of_not_eq_true hd
    by_cases hI : (indian_patterns.any (fun p => strIn p s) ||
        decide (s.data.length > 6)) = true
    · have hn : _normalize_symbol s = s ++ ".NS" := by
        simp only [_normalize_symbol, h]
        rw [if_neg (by simp [hd']), if_pos hI]
      rw [candidates_of_endsWith s (by rw [hn]; exact endsWithStr_append s ".NS"),
        hn, amendedCandidates, if_neg (by simp [hd']), if_pos hI]
    · have hI' : (indian_patterns.any (fun p => strIn p s) ||
          decide (s.data.length > 6)) = false := Bool.of_not_eq_true hI
      have hn : _normalize_symbol s = s := by
        simp only [_normalize_symbol, h]
        rw [if_neg (by simp [hd']), if_neg hI]
      have hNS' : endsWithStr s ".NS" = false := by
        by_contra hcon
        have : endsWithStr s ".NS" = true := by
          cases hE : endsWithStr s ".NS" with
          | false => exact absurd hE hcon
          | true => rfl
        have := containsDot_of_endsWith_NS s this
        rw [hd'] at this
        exact Bool.false_ne_true this
      rw [candidates_of_bare s (by rw [hn]; exact hNS') (by rw [hn]; exact hd'),
        hn, amendedCandidates, if_neg (by simp [hd']), if_neg hI]

/-- Witness for the amended C4 at an already-normalized suffixed input. -/
theorem claim_C4_amended_witness :
    candidates "TCS.NS" = amendedCandidates "TCS.NS" :=
  claim_C4_amended_candidate_order "TCS.NS" (by decide)

/-- Claim C10: any unsuffixed input whose uppercased, trimmed form contains
an `indian_patterns` entry as a substring is classified Indian: the
normalizer appends `'.NS'` and that form is the first candidate tried, with
no requirement that the input equal a list entry or exceed 6 characters. -/
theorem claim_C10_substring_classification (s : String)
    (hdot : containsDot (trimStr (upperStr s)) = false)
    (hpat : ∃ p ∈ indian_patterns, strIn p (trimStr (upperStr s)) = true) :
    _normalize_symbol s = trimStr (upperStr s) ++ ".NS" ∧
    (candidates s).head? = some (trimStr (upperStr s) ++ ".NS") := by
  have hany : indian_patterns.any (fun p => strIn p (trimStr (upperStr s))) =
      true := by
    obtain ⟨p, hp, hps⟩ := hpat
    exact List.any_eq_true.mpr ⟨p, hp, hps⟩
  have hn : _normalize_symbol s = trimStr (upperStr s) ++ ".NS" := by
    simp only [_normalize_symbol]
    rw [if_neg (by simp [hdot]), if_pos (by simp [hany])]
  refine ⟨hn, ?_⟩
  rw [candidates_of_endsWith s (by rw [hn]; exact endsWithStr_append _ _), hn]
  rfl

/-- Witness for C10: `"SALT"` is 4 characters, not an entry of the list, yet
contains the entry `"LT"`, so it is suffixed to `"SALT.NS"`. -/
theorem claim_C10_witness :
    _normalize_symbol "SALT" = trimStr (upperStr "SALT") ++ ".NS" ∧
    (candidates "SALT").head? = some (trimStr (upperStr "SALT") ++ ".NS") :=
  claim_C10_substring_classification "SALT" (by decide) (by decide)

/-- Claim C5: when no tried candidate raises, the fetch accepts the first
candidate (in ladder order) with non-empty history — the returned record is
built wholly from that candidate's own snapshot and history, and its
resolved symbol equals that candidate. -/
theorem claim_C5_first_nonempty_wins (f : Provider) (symbol : String)
    (htotal : ∀ c ∈ candidates symbol, f c ≠ FetchResult.raises)
    (k : ℕ) (hk : k < (candidates symbol).length)
    (hbefore : ∀ j (hj : j < k),
      histOf f ((candidates symbol).get ⟨j, hj.trans hk⟩) = [])
    (hfound : histOf f ((candidates symbol).get ⟨k, hk⟩) ≠ []) :
    get_stock_info f symbol =
      some (buildRecord symbol ((candidates symbol).get ⟨k, hk⟩)
        (infoOf f ((candidates symbol).get ⟨k, hk⟩))
        (histOf f ((candidates symbol).get ⟨k, hk⟩))) ∧
    ∀ rec, get_stock_info f symbol = some rec →
      rec.normalized_symbol = (candidates symbol).get ⟨k, hk⟩ := by
  have hscan :=
    scanCandidates_first f (candidates symbol) htotal k hk hbefore hfound
  have h1 : get_stock_info f symbol =
      some (buildRecord symbol ((candidates symbol).get ⟨k, hk⟩)
        (infoOf f ((candidates symbol).get ⟨k, hk⟩))
        (histOf f ((candidates symbol).get ⟨k, hk⟩))) := by
    rw [get_stock_info_eq_scan, hscan]
    rfl
  refine ⟨h1, ?_⟩
  intro rec hrec
  rw [h1] at hrec
  rw [← Option.some_inj.mp hrec]
  rfl

/-- Witness for C5, matching the spec's scenario: the first two candidates
of `"AAPL"` under `pOk` yield empty history and the third yields rows, so
the resolved symbol is the third candidate `"AAPL.BO"`. -/
theorem claim_C5_witness :
    get_stock_info pOk "AAPL" =
      some (buildRecord "AAPL" "AAPL.BO" (infoOf pOk "AAPL.BO")
        (histOf pOk "AAPL.BO")) :=
  (claim_C5_first_nonempty_wins pOk "AAPL" (by decide) 2 (by decide)
    (by decide) (by decide)).1

/-- Counterexample to claim C6 as stated: under `pRaise` the first candidate
of `"AAPL"` raises while the later candidate `"AAPL.NS"` has rows; the claim
says the fetcher proceeds to that next candidate, but the single enclosing
`try`/`except` (lines 39, 111-113) aborts the whole symbol with `None`. -/
theorem claim_C6_counterexample :
    get_stock_info pRaise "AAPL" = none ∧
    "AAPL.NS" ∈ candidates "AAPL" ∧
    histOf pRaise "AAPL.NS" ≠ [] := by
  exact ⟨rfl, by decide, by decide⟩

/-- Claim C6 (amended): an upstream exception while trying any candidate
that is reached (all earlier candidates returned empty history without
raising) aborts the fetch for that symbol with `None`; the remaining
candidates are not consulted. -/
theorem claim_C6_amended_raise_aborts (f : Provider) (symbol : String)
    (k : ℕ) (hk : k < (candidates symbol).length)
    (hbefore : ∀ j (hj : j < k),
      f ((candidates symbol).get ⟨j, hj.trans hk⟩) =
        FetchResult.ok (infoOf f ((candidates symbol).get ⟨j, hj.trans hk⟩)) [])
    (hraise : f ((candidates symbol).get ⟨k, hk⟩) = FetchResult.raises) :
    get_stock_info f symbol = none := by
  rw [get_stock_info_eq_scan,
    scanCandidates_raise f (candidates symbol) k hk hbefore hraise]
  rfl

/-- Witness for the amended C6: the raise at the first candidate of
`"AAPL"` under `pRaise` makes the whole fetch return `None`. -/
theorem claim_C6_amended_witness : get_stock_info pRaise "AAPL" = none :=
  claim_C6_amended_raise_aborts pRaise "AAPL" 0 (by decide) (by decide)
    (by decide)

/-- Claim C7: the record's dividend-yield and ROE fields are the provider
fraction times 100; a missing or zero provider value becomes the `none`
sentinel, which differs from every numeric value and from `some 0` in
particular. -/
theorem claim_C7_fraction_fields (symbol normalized : String) (info : Info)
    (hist : List HistRow) :
    (∀ v : ℚ, info.dividendYield = some v → v ≠ 0 →
      (buildRecord symbol normalized info hist).dividend_yield =
        some (v * 100)) ∧
    (info.dividendYield = none ∨ info.dividendYield = some 0 →
      (buildRecord symbol normalized info hist).dividend_yield = none) ∧
    (∀ v : ℚ, info.returnOnEquity = some v → v ≠ 0 →
      (buildRecord symbol normalized info hist).roe = some (v * 100)) ∧
    (info.returnOnEquity = none ∨ info.returnOnEquity = some 0 →
      (buildRecord symbol normalized info hist).roe = none) ∧
    (∀ q : ℚ, (none : Option ℚ) ≠ some q) := by
  refine ⟨?_, ?_, ?_, ?_, fun q => by simp⟩
  · intro v hv hv0
    simp [buildRecord, pctField, hv, hv0]
  · rintro (hv | hv) <;> simp [buildRecord, pctField, hv]
  · intro v hv hv0
    simp [buildRecord, pctField, hv, hv0]
  · rintro (hv | hv) <;> simp [buildRecord, pctField, hv]

/-- Witness for C7: a provider fraction `1/40 = 0.025` yields the field
`5/2 = 2.5`, and the zero ROE fraction yields the `none` sentinel. -/
theorem claim_C7_witness :
    (buildRecord "AAPL" "AAPL" infoDiv histA).dividend_yield = some (5/2) ∧
    (buildRecord "AAPL" "AAPL" infoDiv histA).roe = none := by
  constructor
  · have h := (claim_C7_fraction_fields "AAPL" "AAPL" infoDiv histA).1
      (1/40) rfl (by norm_num)
    rw [h]
    norm_num
  · exact (claim_C7_fraction_fields "AAPL" "AAPL" infoDiv histA).2.2.2.1
      (Or.inr rfl)

/-- Claim C8: the record's current price is the quote snapshot's live price
when that is present and non-zero, and otherwise the most recent close of
the (non-empty) history. -/
theorem claim_C8_current_price (symbol normalized : String) (info : Info)
    (hist : List HistRow) (hne : hist ≠ []) :
    (∀ v : ℚ, info.currentPrice = some v → v ≠ 0 →
      (buildRecord symbol normalized info hist).current_price = v) ∧
    (info.currentPrice = none ∨ info.currentPrice = some 0 →
      (buildRecord symbol normalized info hist).current_price =
        (hist.getLast hne).close) := by
  constructor
  · intro v hv hv0
    simp [buildRecord, currentPriceOf, hv, hv0]
  · intro hv
    have hfall : (buildRecord symbol normalized info hist).current_price =
        (if (closes hist).getLastD 0 = 0 then 0 else (closes hist).getLastD 0) := by
      rcases hv with hv | hv <;> simp [buildRecord, currentPriceOf, hv]
    rw [hfall, ← closes_getLastD hist hne]
    by_cases h0 : (closes hist).getLastD 0 = 0
    · rw [if_pos h0, h0]
    · rw [if_neg h0]

/-- Witness for C8: a live price of `7` is kept, and with no live price the
record falls back to the last close of the two-row history. -/
theorem claim_C8_witness :
    (buildRecord "AAPL" "AAPL" infoPx histA).current_price = 7 ∧
    (buildRecord "AAPL" "AAPL" {} histA).current_price =
      (histA.getLast (by decide)).close := by
  constructor
  · exact (claim_C8_current_price "AAPL" "AAPL" infoPx histA (by decide)).1
      7 rfl (by norm_num)
  · exact (claim_C8_current_price "AAPL" "AAPL" {} histA (by decide)).2
      (Or.inl rfl)

/-- Claim C9: the batch result holds a record exactly for the symbols whose
fetch succeeded — a failed symbol is omitted without aborting the others —
and every record present has a non-empty price-history series. -/
theorem claim_C9_batch_membership (f : Provider) (symbols : List String) :
    (∀ s d, (s, d) ∈ analyze_stocks f symbols →
      s ∈ symbols ∧ get_stock_info f s = some d ∧ d.price_history ≠ []) ∧
    (∀ s, s ∈ symbols → ∀ d, get_stock_info f s = some d →
      (s, d) ∈ analyze_stocks f symbols) := by
  constructor
  · intro s d hmem
    rw [analyze_stocks_eq_filterMap] at hmem
    obtain ⟨s', hs', hmap⟩ := List.mem_filterMap.mp hmem
    cases hg : get_stock_info f s' with
    | none => rw [hg] at hmap; simp at hmap
    | some d' =>
      rw [hg] at hmap
      simp only [Option.map, Option.some_inj, Prod.mk.injEq] at hmap
      obtain ⟨hs, hd⟩ := hmap
      subst hs
      subst hd
      exact ⟨hs', hg,
        get_stock_info_price_history_ne_nil f _ _ hg⟩
  · intro s hs d hg
    rw [analyze_stocks_eq_filterMap]
    exact List.mem_filterMap.mpr ⟨s, hs, by rw [hg]; rfl⟩

/-- Witness for C9: in the batch `["AAPL", "BAD"]` under `pOk`, the failing
symbol `"BAD"` does not stop `"AAPL"` from being present in the result. -/
theorem claim_C9_witness :
    ("AAPL", buildRecord "AAPL" "AAPL.BO" {} histA) ∈
      analyze_stocks pOk ["AAPL", "BAD"] :=
  (claim_C9_batch_membership pOk ["AAPL", "BAD"]).2 "AAPL" (by decide)
    (buildRecord "AAPL" "AAPL.BO" {} histA) rfl

/-- Counterexample to claim C3 as stated: two usable series overlapping on
exactly one date pass the engine's guards, yet the resulting matrix has an
undefined (`NaN`, here `none`) diagonal cell — not `1.0` — because a single
aligned row has zero variance. -/
theorem claim_C3_counterexample :
    2 ≤ (usableCols sdOne).length ∧
    sharedDatesOf ((usableCols sdOne).map Prod.snd) = [0] ∧
    calculate_correlations sdOne =
      some (corrMatrix [("A", [1]), ("B", [2])]) ∧
    cellD (corrMatrix [("A", [1]), ("B", [2])]) 0 0 = none := by
  refine ⟨by decide, by decide, rfl, ?_⟩
  norm_num [cellD, corrMatrix, pearsonSSq, svar, scov]

/-- Structural properties of `corrMatrix` over any family of equal-length
labelled columns. -/
theorem corrMatrix_uniform_props (cols : List (String × List ℚ)) (L : ℕ)
    (hL : ∀ c ∈ cols, c.2.length = L) :
    (corrMatrix cols).map Prod.fst = cols.map Prod.fst ∧
    (∀ row ∈ corrMatrix cols, row.2.map Prod.fst = cols.map Prod.fst) ∧
    (corrMatrix cols).length = cols.length ∧
    (∀ i j, i < cols.length → j < cols.length →
      cellD (corrMatrix cols) i j = cellD (corrMatrix cols) j i) ∧
    (∀ i (hi : i < cols.length), svar (cols.get ⟨i, hi⟩).2 ≠ 0 →
      cellD (corrMatrix cols) i i = some 1) ∧
    (∀ i j q, i < cols.length → j < cols.length →
      cellD (corrMatrix cols) i j = some q → -1 ≤ q ∧ q ≤ 1) := by
  have hlen : ∀ i (hi : i < cols.length), (cols.get ⟨i, hi⟩).2.length = L :=
    fun i hi => hL _ (List.get_mem cols i hi)
  refine ⟨?_, ?_, List.length_map _ _, ?_, ?_, ?_⟩
  · rw [corrMatrix, List.map_map]
    rfl
  · intro row hrow
    rw [corrMatrix] at hrow
    obtain ⟨c, -, hc⟩ := List.mem_map.mp hrow
    rw [← hc, List.map_map]
    rfl
  · intro i j hi hj
    rw [cellD_corrMatrix cols i j hi hj, cellD_corrMatrix cols j i hj hi]
    exact pearsonSSq_comm _ _ (by rw [hlen i hi, hlen j hj])
  · intro i hi hvar
    rw [cellD_corrMatrix cols i i hi hi]
    exact pearsonSSq_self _ hvar
  · intro i j q hi hj hq
    rw [cellD_corrMatrix cols i j hi hj] at hq
    exact pearsonSSq_mem_Icc _ _ (by rw [hlen i hi, hlen j hj]) q hq

/-- The aligned column at a usable index. -/
theorem alignedColumns_getD (sd : List (String × StockData)) (i : ℕ)
    (hi : i < (usableCols sd).length) :
    (alignedColumns sd).getD i [] =
      alignSeries (sharedDatesOf ((usableCols sd).map Prod.snd))
        ((usableCols sd).get ⟨i, hi⟩).2 := by
  rw [alignedColumns]
  have hi2 : i < ((usableCols sd).map (fun p =>
      alignSeries (sharedDatesOf ((usableCols sd).map Prod.snd))
        p.2)).length := by
    rw [List.length_map]; exact hi
  rw [List.getD_eq_getElem _ _ hi2]
  simp [List.getElem_map, List.get_eq_getElem]

/-- Claim C3 (amended): every returned correlation matrix is square over
exactly the usable symbols and symmetric; every diagonal cell whose aligned
column has non-zero variance equals `1.0` (with zero variance — in
particular whenever only one row overlaps — that cell is `NaN`/undefined
instead); and every defined cell lies in `[-1, 1]`. -/
theorem claim_C3_amended_matrix_props (sd : List (String × StockData))
    (m : List (String × List (String × Option ℚ)))
    (hm : calculate_correlations sd = some m) :
    m.map Prod.fst = (usableCols sd).map Prod.fst ∧
    (∀ row ∈ m, row.2.map Prod.fst = (usableCols sd).map Prod.fst) ∧
    m.length = (usableCols sd).length ∧
    (∀ i j, i < m.length → j < m.length → cellD m i j = cellD m j i) ∧
    (∀ i, i < m.length → svar ((alignedColumns sd).getD i []) ≠ 0 →
      cellD m i i = some 1) ∧
    (∀ i j q, i < m.length → j < m.length → cellD m i j = some q →
      -1 ≤ q ∧ q ≤ 1) := by
  obtain ⟨hmeq, -, -⟩ := calc_corr_some_eq sd m hm
  have hL : ∀ c ∈ (usableCols sd).map
      (fun p => (p.1, alignSeries
        (sharedDatesOf ((usableCols sd).map Prod.snd)) p.2)),
      c.2.length = (sharedDatesOf ((usableCols sd).map Prod.snd)).length := by
    intro c hc
    obtain ⟨p, -, hp⟩ := List.mem_map.mp hc
    rw [← hp]
    exact alignSeries_length _ _
  obtain ⟨hlab, hrows, hlen, hsym, hdiag, hbnd⟩ :=
    corrMatrix_uniform_props _ _ hL
  have hclen : ((usableCols sd).map
      (fun p => (p.1, alignSeries
        (sharedDatesOf ((usableCols sd).map Prod.snd)) p.2))).length =
      (usableCols sd).length := List.length_map _ _
  have hul : (((usableCols sd).map
      (fun p => (p.1, alignSeries
        (sharedDatesOf ((usableCols sd).map Prod.snd)) p.2))).map
        Prod.fst) = (usableCols sd).map Prod.fst := by
    rw [List.map_map]
    rfl
  have hmlen : m.length = (usableCols sd).length := by
    rw [hmeq, hlen, hclen]
  refine ⟨?_, ?_, hmlen, ?_, ?_, ?_⟩
  · rw [hmeq, hlab, hul]
  · intro row hrow
    rw [hmeq] at hrow
    rw [hrows row hrow, hul]
  · intro i j hi hj
    rw [hmlen, ← hclen] at hi hj
    rw [hmeq]
    exact hsym i j hi hj
  · intro i hi hvar
    rw [hmlen] at hi
    have hi' : i < ((usableCols sd).map
        (fun p => (p.1, alignSeries
          (sharedDatesOf ((usableCols sd).map Prod.snd)) p.2))).length := by
      rw [hclen]; exact hi
    have hget : (((usableCols sd).map
        (fun p => (p.1, alignSeries
          (sharedDatesOf ((usableCols sd).map Prod.snd)) p.2))).get
          ⟨i, hi'⟩).2 = (alignedColumns sd).getD i [] := by
      rw [alignedColumns_getD sd i hi]
      simp [List.get_eq_getElem, List.getElem_map]
    rw [hmeq]
    refine hdiag i hi' ?_
    rw [hget]
    exact hvar
  · intro i j q hi hj hq
    rw [hmlen, ← hclen] at hi hj
    rw [hmeq] at hq
    exact hbnd i j q hi hj hq

/-- Witness for the amended C3 on two non-constant two-point series: the
off-diagonal cells agree and the first diagonal cell is exactly `1`. -/
theorem claim_C3_amended_witness :
    cellD (corrMatrix [("A", [1, 2]), ("B", [2, 1])]) 0 1 =
      cellD (corrMatrix [("A", [1, 2]), ("B", [2, 1])]) 1 0 ∧
    cellD (corrMatrix [("A", [1, 2]), ("B", [2, 1])]) 0 0 = some 1 := by
  have h := claim_C3_amended_matrix_props sdPair
    (corrMatrix [("A", [1, 2]), ("B", [2, 1])]) rfl
  refine ⟨h.2.2.2.1 0 1 (by decide) (by decide), ?_⟩
  apply h.2.2.2.2.1 0 (by decide)
  rw [show (alignedColumns sdPair).getD 0 [] = [(1 : ℚ), 2] from rfl]
  norm_num [svar, scov]
